import Mathlib

/-!
Verification of the benchmark notebook `nltk_vs_spacy.ipynb`.

The notebook has three pieces of logic that the specification describes:

* a **timed pipeline runner** (cells 5 and 6): for each text in the corpus it
  runs the external pipeline three times, collecting the wall-clock duration
  of each trial in a list `times`, and appends `min(times)` to the result
  list;
* a **log-log regression fitter** (cells 8-10): it maps `math.log10` over the
  character counts and over the measured durations (`math.log10` raises a
  domain error on non-positive input) and feeds the two log-lists to
  `scipy.stats.linregress`, keeping `(slope, intercept, r**2)`;
* an **extrapolation function** (cell 12): `reg(x) = 10**b * 10**(m * log10 x)`.

The runner is embedded with the wall-clock trial durations supplied by an
environment function `d : ℕ → R` giving the duration of the n-th pipeline
invocation, and a threaded invocation counter, so that "number of pipeline
calls" is part of the state.  The fitter is embedded over `ℝ`.
-/

namespace TextBench

/-- Failure of the regression preconditions: a non-positive value fed to
`log10` (Python raises `ValueError: math domain error`) or a degenerate
regression input. -/
inductive DomainError where
  | nonPositive : DomainError
  | degenerate : DomainError
deriving DecidableEq

/-! ## Timed pipeline runner (cells 5 and 6) -/

/-- Python's `min` over a non-empty list `x :: xs`: a left fold of binary
`min` starting from the first element. -/
def pyMin {R : Type} [LinearOrder R] (x : R) (xs : List R) : R := xs.foldl min x

/-- The timing loop of cells 5 and 6.  For each text of the corpus it runs
the pipeline three times; the environment `d` gives the wall-clock duration
`t2 - t1` of the n-th pipeline invocation overall, and `calls` counts the
invocations made so far.  The minimum of the three trial durations is
appended to the result list, exactly as `spacy.append(min(times))` /
`nltk.append(min(times))` do. -/
def runPipeline {α R : Type} [LinearOrder R] (d : ℕ → R) : List α → ℕ → List R × ℕ
  | [], calls => ([], calls)
  | _ :: rest, calls =>
    let best := pyMin (d calls) [d (calls + 1), d (calls + 2)]
    let r := runPipeline d rest (calls + 3)
    (best :: r.1, r.2)

/-! ## Log-log regression fitter (cells 8-10) -/

/-- `np.mean`: sum divided by length. -/
noncomputable def mean (l : List ℝ) : ℝ := l.sum / l.length

/-- The diagonal entry of `np.cov(x, y, bias=1)`: the biased sample
variance `Σ (xᵢ - x̄)² / n`. -/
noncomputable def ssm (x : List ℝ) : ℝ :=
  ((x.map (fun v => (v - mean x) ^ 2)).sum) / x.length

/-- The off-diagonal entry of `np.cov(x, y, bias=1)`: the biased sample
covariance `Σ (xᵢ - x̄)(yᵢ - ȳ) / n`. -/
noncomputable def ssxym (x y : List ℝ) : ℝ :=
  ((List.zipWith (fun a b => (a - mean x) * (b - mean y)) x y).sum) / x.length

/-- The clamping `linregress` applies to the correlation coefficient:
`if r > 1.0: r = 1.0 elif r < -1.0: r = -1.0`. -/
noncomputable def clamp1 (r : ℝ) : ℝ := if r > 1 then 1 else if r < -1 then -1 else r

structure LinregressResult where
  slope : ℝ
  intercept : ℝ
  rvalue : ℝ

/-- Modelled from the spec: `scipy.stats.linregress` is an external library
whose source is not part of this repository.  Its numerics follow the
ordinary least-squares formulas the spec names (slope `= cov/var`,
`intercept = ȳ - slope·x̄`, correlation `r = cov / √(var x · var y)` with
`r = 0` when that denominator vanishes, clamped to `[-1, 1]`), and its
failure on a degenerate abscissa (all `x` identical, i.e. zero variance,
"regression underdetermined") is modelled as a `DomainError`. -/
noncomputable def linregress (x y : List ℝ) : Except DomainError LinregressResult :=
  if ssm x = 0 then .error .degenerate
  else
    .ok { slope := ssxym x y / ssm x
          intercept := mean y - (ssxym x y / ssm x) * mean x
          rvalue :=
            if Real.sqrt (ssm x * ssm y) = 0 then 0
            else clamp1 (ssxym x y / Real.sqrt (ssm x * ssm y)) }

/-- Python's `math.log10`: defined for positive arguments, raises
`ValueError: math domain error` otherwise. -/
noncomputable def log10 (v : ℝ) : Except DomainError ℝ :=
  if 0 < v then .ok (Real.logb 10 v) else .error .nonPositive

/-- The list comprehensions of cell 8, `[math.log10(n) for n in ...]`:
the first domain error aborts the whole comprehension. -/
noncomputable def mapLog10 : List ℝ → Except DomainError (List ℝ)
  | [] => .ok []
  | v :: rest =>
    match log10 v with
    | .error e => .error e
    | .ok logV =>
      match mapLog10 rest with
      | .error e => .error e
      | .ok logRest => .ok (logV :: logRest)

structure FitResult where
  slope : ℝ
  intercept : ℝ
  r_squared : ℝ

/-- The fitter of cells 8-10: map `log10` over sizes and durations, run
`linregress`, and keep `(m, b, r**2)`. -/
noncomputable def fitLogLog (sizes durations : List ℝ) : Except DomainError FitResult :=
  match mapLog10 sizes with
  | .error e => .error e
  | .ok logx =>
    match mapLog10 durations with
    | .error e => .error e
    | .ok logy =>
      match linregress logx logy with
      | .error e => .error e
      | .ok res => .ok { slope := res.slope, intercept := res.intercept,
                         r_squared := res.rvalue ^ 2 }

/-! ## Extrapolation (cell 12) -/

/-- Cell 12's `reg_spacy` / `reg_nltk`, parametrised by the fitted slope `m`
and intercept `b`: `(10 ** b) * (10 ** (m * math.log10(x)))`, with the
domain error of `math.log10` propagated. -/
noncomputable def reg (m b x : ℝ) : Except DomainError ℝ :=
  match log10 x with
  | .error e => .error e
  | .ok logX => .ok ((10 : ℝ) ^ b * (10 : ℝ) ^ (m * logX))

/-! ## List helper lemmas -/

theorem list_sum_zero_of_all_zero (l : List ℝ) (h : ∀ a ∈ l, a = 0) : l.sum = 0 := by
  induction l with
  | nil => rfl
  | cons x rest ih =>
    have hx : x = 0 := h x (List.mem_cons_self x rest)
    have hr := ih (fun a ha => h a (List.mem_cons_of_mem x ha))
    simp [hx, hr]

theorem list_sum_map_shift (c : ℝ) (l : List ℝ) :
    (l.map (fun v => c + v)).sum = l.length * c + l.sum := by
  induction l with
  | nil => simp
  | cons x rest ih => simp [ih]; ring

theorem map_shift_sq (c m : ℝ) (l : List ℝ) :
    (l.map (fun v => c + v)).map (fun v => (v - (c + m)) ^ 2) =
      l.map (fun v => (v - m) ^ 2) := by
  induction l with
  | nil => rfl
  | cons x rest ih =>
    simp only [List.map_cons, ih, List.cons.injEq, and_true]
    ring

theorem zipWith_centered_shift (mx my c : ℝ) :
    ∀ x y : List ℝ,
      List.zipWith (fun a b => (a - mx) * (b - (c + my))) x (y.map (fun v => c + v)) =
        List.zipWith (fun a b => (a - mx) * (b - my)) x y := by
  intro x
  induction x with
  | nil => intro y; rfl
  | cons a rest ih =>
    intro y
    cases y with
    | nil => rfl
    | cons b yrest =>
      simp only [List.map_cons, List.zipWith_cons_cons, ih, List.cons.injEq, and_true]
      ring

theorem zipWith_self_sq (m : ℝ) (x : List ℝ) :
    List.zipWith (fun a b => (a - m) * (b - m)) x x = x.map (fun v => (v - m) ^ 2) := by
  induction x with
  | nil => rfl
  | cons a rest ih =>
    simp only [List.zipWith_cons_cons, List.map_cons, ih, List.cons.injEq, and_true]
    ring

/-! ## Statistics lemmas -/

theorem mean_shift (c : ℝ) (l : List ℝ) (hl : l ≠ []) :
    mean (l.map (fun v => c + v)) = c + mean l := by
  have hn : (l.length : ℝ) ≠ 0 := by
    have : 0 < l.length := List.length_pos.mpr hl
    positivity
  simp only [mean, List.length_map, list_sum_map_shift]
  field_simp
  ring

theorem mean_const (l : List ℝ) (m : ℝ) (hl : l ≠ []) (h : ∀ a ∈ l, a = m) :
    mean l = m := by
  have hn : (l.length : ℝ) ≠ 0 := by
    have : 0 < l.length := List.length_pos.mpr hl
    positivity
  have hsum : l.sum = l.length * m := by
    induction l with
    | nil => simp at hl
    | cons x rest ih =>
      have hx : x = m := h x (List.mem_cons_self x rest)
      rcases List.eq_nil_or_concat rest with hr | _
      · subst hr; simp [hx]
      · have hrsum : rest.sum = rest.length * m := by
          rcases rest with _ | ⟨y, yr⟩
          · simp
          · exact ih (by simp) (fun a ha => h a (List.mem_cons_of_mem x ha)) (by
              have : 0 < (y :: yr : List ℝ).length := List.length_pos.mpr (by simp)
              positivity)
        simp [hx, hrsum]
        ring
  rw [mean, hsum]
  field_simp

theorem ssm_nonneg (x : List ℝ) : 0 ≤ ssm x := by
  apply div_nonneg
  · exact List.sum_nonneg (by
      intro a ha
      obtain ⟨v, _, rfl⟩ := List.mem_map.mp ha
      positivity)
  · positivity

theorem ssm_eq_zero_of_const (x : List ℝ) (h : ∀ a ∈ x, ∀ b ∈ x, a = b) : ssm x = 0 := by
  rcases x with _ | ⟨v, rest⟩
  · simp [ssm]
  · have hmean : mean (v :: rest) = v :=
      mean_const _ v (by simp) (fun a ha => h a ha v (List.mem_cons_self v rest))
    have hz : ((v :: rest).map (fun w => (w - mean (v :: rest)) ^ 2)).sum = 0 := by
      apply list_sum_zero_of_all_zero
      intro a ha
      obtain ⟨w, hw, rfl⟩ := List.mem_map.mp ha
      have : w = v := h w hw v (List.mem_cons_self v rest)
      simp [this, hmean]
    simp only [ssm]
    rw [hz, zero_div]

theorem ssm_pos_of_distinct (x : List ℝ) (a b : ℝ) (ha : a ∈ x) (hb : b ∈ x)
    (hab : a ≠ b) : 0 < ssm x := by
  have hterms : ∀ t ∈ x.map (fun v => (v - mean x) ^ 2), 0 ≤ t := by
    intro t ht
    obtain ⟨v, _, rfl⟩ := List.mem_map.mp ht
    positivity
  have hsum : 0 ≤ (x.map (fun v => (v - mean x) ^ 2)).sum := List.sum_nonneg hterms
  have hne : (x.map (fun v => (v - mean x) ^ 2)).sum ≠ 0 := by
    intro hz
    have hall : ∀ t ∈ x.map (fun v => (v - mean x) ^ 2), t = 0 := by
      intro t ht
      exact List.all_zero_of_le_zero_le_of_sum_eq_zero hterms hz ht
    have haz : (a - mean x) ^ 2 = 0 := hall _ (List.mem_map_of_mem _ ha)
    have hbz : (b - mean x) ^ 2 = 0 := hall _ (List.mem_map_of_mem _ hb)
    have ha' : a = mean x := by nlinarith [sq_nonneg (a - mean x)]
    have hb' : b = mean x := by nlinarith [sq_nonneg (b - mean x)]
    exact hab (ha'.trans hb'.symm)
  have hlen : (0 : ℝ) < x.length := by
    have : 0 < x.length := List.length_pos.mpr (List.ne_nil_of_mem ha)
    exact_mod_cast this
  exact div_pos (lt_of_le_of_ne hsum (Ne.symm hne)) hlen

theorem ssm_shift (c : ℝ) (l : List ℝ) (hl : l ≠ []) :
    ssm (l.map (fun v => c + v)) = ssm l := by
  simp only [ssm, List.length_map, mean_shift c l hl, map_shift_sq]

theorem ssxym_shift (c : ℝ) (x y : List ℝ) (hy : y ≠ []) :
    ssxym x (y.map (fun v => c + v)) = ssxym x y := by
  simp only [ssxym, mean_shift c y hy, zipWith_centered_shift]

theorem ssxym_self (x : List ℝ) : ssxym x x = ssm x := by
  simp only [ssxym, ssm, zipWith_self_sq]

/-! ## Runner lemmas -/

theorem pyMin_three {R : Type} [LinearOrder R] (a b c : R) :
    pyMin a [b, c] = min (min a b) c := rfl

theorem runPipeline_length {α R : Type} [LinearOrder R] (d : ℕ → R) (corpus : List α) :
    ∀ c : ℕ, ((runPipeline d corpus c).1).length = corpus.length := by
  induction corpus with
  | nil => intro c; rfl
  | cons t rest ih => intro c; simp [runPipeline, ih]

theorem runPipeline_getD {α R : Type} [LinearOrder R] (d : ℕ → R) (z : R) (corpus : List α) :
    ∀ c i : ℕ, i < corpus.length →
      ((runPipeline d corpus c).1).getD i z =
        min (min (d (c + 3 * i)) (d (c + 3 * i + 1))) (d (c + 3 * i + 2)) := by
  induction corpus with
  | nil => intro c i h; simp at h
  | cons t rest ih =>
    intro c i h
    cases i with
    | zero => simp [runPipeline, pyMin_three]
    | succ i =>
      have hi : i < rest.length := by simpa using h
      have e0 : c + 3 + 3 * i = c + 3 * (i + 1) := by ring
      have e1 : c + 3 + 3 * i + 1 = c + 3 * (i + 1) + 1 := by ring
      have e2 : c + 3 + 3 * i + 2 = c + 3 * (i + 1) + 2 := by ring
      have := ih (c + 3) i hi
      rw [e2, e1, e0] at this
      simpa [runPipeline] using this

/-- C1: for every sample of the corpus, the runner records exactly the
minimum of the three measured trial durations, and hence the recorded
duration is at most the duration of each individual trial. -/
theorem runner_records_min_of_three (d : ℕ → ℝ) (corpus : List String) (c i : ℕ)
    (h : i < corpus.length) (j : Fin 3) :
    ((runPipeline d corpus c).1).getD i 0 =
      min (min (d (c + 3 * i)) (d (c + 3 * i + 1))) (d (c + 3 * i + 2)) ∧
    ((runPipeline d corpus c).1).getD i 0 ≤ d (c + 3 * i + j) := by
  have hg := runPipeline_getD d 0 corpus c i h
  refine ⟨hg, ?_⟩
  rw [hg]
  fin_cases j
  · simp
  · exact le_trans (min_le_left _ _) (min_le_right _ _)
  · exact min_le_right _ _

theorem runner_records_min_of_three_witness :
    0 < (["x", "y"] : List String).length ∧
    (((runPipeline (Nat.cast : ℕ → ℝ) ["x", "y"] 0).1).getD 0 0 =
        min (min ((0 : ℕ) : ℝ) ((1 : ℕ) : ℝ)) ((2 : ℕ) : ℝ) ∧
      ((runPipeline (Nat.cast : ℕ → ℝ) ["x", "y"] 0).1).getD 0 0 ≤ ((2 : ℕ) : ℝ)) :=
  ⟨by decide, runner_records_min_of_three Nat.cast ["x", "y"] 0 0 (by decide) 2⟩

/-- C7: on an empty corpus the runner returns an empty timing-result list
and leaves the invocation counter untouched: the external pipeline is never
invoked.  This holds for any pipeline environment `d`, in particular for
both the spaCy and the NLTK pipeline. -/
theorem runner_empty_corpus (d : ℕ → ℝ) (c : ℕ) :
    runPipeline d ([] : List String) c = ([], c) := rfl

/-- C8 (counterexample): with a clock too coarse to advance between the two
readings of a trial, every measured `t2 - t1` is `0` and the recorded
duration is `0`, not strictly positive.  The runner has no guard enforcing
positivity. -/
theorem runner_positive_counterexample :
    ¬ (0 < ((runPipeline (fun _ => (0 : ℝ)) ["x"] 0).1).getD 0 0) := by
  simp [runPipeline, pyMin]

/-- C8 (amended): every recorded duration is strictly positive provided
every measured trial duration is strictly positive. -/
theorem runner_positive_of_trials_positive (d : ℕ → ℝ) (corpus : List String) (c i : ℕ)
    (h : i < corpus.length) (hd : ∀ n, 0 < d n) :
    0 < ((runPipeline d corpus c).1).getD i 0 := by
  rw [runPipeline_getD d 0 corpus c i h]
  exact lt_min (lt_min (hd _) (hd _)) (hd _)

theorem runner_positive_of_trials_positive_witness :
    0 < ((runPipeline (fun _ => (1 : ℝ)) ["x"] 0).1).getD 0 0 :=
  runner_positive_of_trials_positive (fun _ => 1) ["x"] 0 0 (by decide) (fun _ => one_pos)

/-- C9: the recorded duration of every sample is one of the three measured
trial durations of that sample, the results are in corpus order (the i-th
result is computed from the i-th sample's trials), and the result list has
the same length as the corpus. -/
theorem runner_result_member_and_length (d : ℕ → ℝ) (corpus : List String) (c i : ℕ)
    (h : i < corpus.length) :
    ((runPipeline d corpus c).1).length = corpus.length ∧
    (((runPipeline d corpus c).1).getD i 0 = d (c + 3 * i) ∨
     ((runPipeline d corpus c).1).getD i 0 = d (c + 3 * i + 1) ∨
     ((runPipeline d corpus c).1).getD i 0 = d (c + 3 * i + 2)) := by
  refine ⟨runPipeline_length d corpus c, ?_⟩
  rw [runPipeline_getD d 0 corpus c i h]
  rcases min_choice (min (d (c + 3 * i)) (d (c + 3 * i + 1))) (d (c + 3 * i + 2)) with h1 | h1
  · rcases min_choice (d (c + 3 * i)) (d (c + 3 * i + 1)) with h2 | h2
    · exact Or.inl (h1.trans h2)
    · exact Or.inr (Or.inl (h1.trans h2))
  · exact Or.inr (Or.inr h1)

theorem runner_result_member_and_length_witness :
    ((runPipeline (Nat.cast : ℕ → ℝ) ["x"] 0).1).length = (["x"] : List String).length ∧
    (((runPipeline (Nat.cast : ℕ → ℝ) ["x"] 0).1).getD 0 0 = ((0 : ℕ) : ℝ) ∨
     ((runPipeline (Nat.cast : ℕ → ℝ) ["x"] 0).1).getD 0 0 = ((1 : ℕ) : ℝ) ∨
     ((runPipeline (Nat.cast : ℕ → ℝ) ["x"] 0).1).getD 0 0 = ((2 : ℕ) : ℝ)) :=
  runner_result_member_and_length Nat.cast ["x"] 0 0 (by decide)

/-! ## Fitter lemmas -/

theorem clamp1_le_one (r : ℝ) : clamp1 r ≤ 1 := by
  unfold clamp1
  split
  · exact le_refl 1
  · split
    · norm_num
    · linarith [not_lt.mp (by assumption : ¬ r > 1)]

theorem neg_one_le_clamp1 (r : ℝ) : -1 ≤ clamp1 r := by
  unfold clamp1
  split
  · norm_num
  · split
    · exact le_refl (-1)
    · linarith [not_lt.mp (by assumption : ¬ r < -1)]

theorem clamp1_one : clamp1 1 = 1 := by norm_num [clamp1]

theorem linregress_eq_of_ssm_ne (x y : List ℝ) (hx : ssm x ≠ 0) :
    linregress x y = .ok
      { slope := ssxym x y / ssm x
        intercept := mean y - ssxym x y / ssm x * mean x
        rvalue := if Real.sqrt (ssm x * ssm y) = 0 then 0
                  else clamp1 (ssxym x y / Real.sqrt (ssm x * ssm y)) } := by
  simp only [linregress, if_neg hx]

theorem linregress_shift (x y : List ℝ) (c : ℝ) (hx : ssm x ≠ 0) (hy : y ≠ []) :
    linregress x (y.map (fun v => c + v)) = .ok
      { slope := ssxym x y / ssm x
        intercept := (mean y - ssxym x y / ssm x * mean x) + c
        rvalue := if Real.sqrt (ssm x * ssm y) = 0 then 0
                  else clamp1 (ssxym x y / Real.sqrt (ssm x * ssm y)) } := by
  rw [linregress_eq_of_ssm_ne x (y.map (fun v => c + v)) hx]
  simp only [ssxym_shift c x y hy, ssm_shift c y hy, mean_shift c y hy,
    Except.ok.injEq, LinregressResult.mk.injEq]
  exact ⟨trivial, by ring, trivial⟩

theorem linregress_self (x : List ℝ) (hx : ssm x ≠ 0) :
    linregress x x = .ok { slope := 1, intercept := 0, rvalue := 1 } := by
  rw [linregress_eq_of_ssm_ne x x hx]
  have hsq : Real.sqrt (ssm x * ssm x) = ssm x := Real.sqrt_mul_self (ssm_nonneg x)
  simp only [ssxym_self, hsq, if_neg hx, div_self hx, clamp1_one,
    Except.ok.injEq, LinregressResult.mk.injEq]
  exact ⟨trivial, by ring, trivial⟩

theorem mapLog10_ok : ∀ l : List ℝ, (∀ v ∈ l, 0 < v) →
    mapLog10 l = .ok (l.map (Real.logb 10)) := by
  intro l
  induction l with
  | nil => intro _; rfl
  | cons v rest ih =>
    intro h
    have hv : 0 < v := h v (List.mem_cons_self v rest)
    have hrest := ih (fun a ha => h a (List.mem_cons_of_mem v ha))
    simp [mapLog10, log10, if_pos hv, hrest]

theorem mapLog10_error : ∀ l : List ℝ, ∀ v ∈ l, v ≤ 0 →
    ∃ e, mapLog10 l = .error e := by
  intro l
  induction l with
  | nil => intro v hv; simp at hv
  | cons x rest ih =>
    intro v hv hv0
    by_cases hx : 0 < x
    · have hvr : v ∈ rest := by
        rcases List.mem_cons.mp hv with rfl | hr
        · exact absurd hx (not_lt.mpr hv0)
        · exact hr
      obtain ⟨e, he⟩ := ih v hvr hv0
      refine ⟨e, ?_⟩
      simp [mapLog10, log10, if_pos hx, he]
    · refine ⟨.nonPositive, ?_⟩
      simp [mapLog10, log10, if_neg hx]

theorem fitLogLog_eq (sizes durations : List ℝ) (hs : ∀ s ∈ sizes, 0 < s)
    (hd : ∀ t ∈ durations, 0 < t) :
    fitLogLog sizes durations =
      match linregress (sizes.map (Real.logb 10)) (durations.map (Real.logb 10)) with
      | .error e => .error e
      | .ok res => .ok { slope := res.slope, intercept := res.intercept,
                         r_squared := res.rvalue ^ 2 } := by
  simp only [fitLogLog, mapLog10_ok sizes hs, mapLog10_ok durations hd]

theorem linregress_self_shift (x : List ℝ) (c : ℝ) (hx : ssm x ≠ 0) (hne : x ≠ []) :
    linregress x (x.map (fun v => c + v)) =
      .ok { slope := 1, intercept := c, rvalue := 1 } := by
  rw [linregress_shift x x c hx hne]
  have hsq : Real.sqrt (ssm x * ssm x) = ssm x := Real.sqrt_mul_self (ssm_nonneg x)
  simp only [ssxym_self, hsq, if_neg hx, div_self hx, clamp1_one,
    Except.ok.injEq, LinregressResult.mk.injEq]
  exact ⟨trivial, by ring, trivial⟩

theorem linregress_rvalue_bounds (x y : List ℝ) (r : LinregressResult)
    (h : linregress x y = .ok r) : -1 ≤ r.rvalue ∧ r.rvalue ≤ 1 := by
  unfold linregress at h
  by_cases hx : ssm x = 0
  · rw [if_pos hx] at h
    exact Except.noConfusion h
  · rw [if_neg hx] at h
    simp only [Except.ok.injEq] at h
    subst h
    dsimp only
    by_cases hden : Real.sqrt (ssm x * ssm y) = 0
    · rw [if_pos hden]
      norm_num
    · rw [if_neg hden]
      exact ⟨neg_one_le_clamp1 _, clamp1_le_one _⟩

theorem list_map_congr_mem {α β : Type} (l : List α) (f g : α → β)
    (h : ∀ a ∈ l, f a = g a) : l.map f = l.map g := by
  induction l with
  | nil => rfl
  | cons x rest ih =>
    rw [List.map_cons, List.map_cons, h x (List.mem_cons_self x rest),
      ih (fun a ha => h a (List.mem_cons_of_mem x ha))]

theorem logb_ten_ne (a b : ℝ) (ha : 0 < a) (hb : 0 < b) (hab : a ≠ b) :
    Real.logb 10 a ≠ Real.logb 10 b := fun h =>
  hab (Real.logb_injOn_pos (by norm_num) (Set.mem_Ioi.mpr ha) (Set.mem_Ioi.mpr hb) h)

theorem ssm_log_pos (sizes : List ℝ) (hs : ∀ s ∈ sizes, 0 < s) (a b : ℝ)
    (ha : a ∈ sizes) (hb : b ∈ sizes) (hab : a ≠ b) :
    0 < ssm (sizes.map (Real.logb 10)) :=
  ssm_pos_of_distinct _ (Real.logb 10 a) (Real.logb 10 b)
    (List.mem_map_of_mem _ ha) (List.mem_map_of_mem _ hb)
    (logb_ten_ne a b (hs a ha) (hs b hb) hab)

/-- C2: the fitter fails with a `DomainError` if any size or any duration is
non-positive, or if fewer than two distinct size values are supplied. -/
theorem fitter_domain_error (sizes durations : List ℝ)
    (h : (∃ s ∈ sizes, s ≤ 0) ∨ (∃ t ∈ durations, t ≤ 0) ∨
         (∀ a ∈ sizes, ∀ b ∈ sizes, a = b)) :
    ∃ e, fitLogLog sizes durations = .error e := by
  by_cases hs : ∃ s ∈ sizes, s ≤ 0
  · obtain ⟨s, hsm, hs0⟩ := hs
    obtain ⟨e, he⟩ := mapLog10_error sizes s hsm hs0
    exact ⟨e, by simp [fitLogLog, he]⟩
  · have hspos : ∀ s ∈ sizes, 0 < s := by
      intro s hsm
      by_contra hns
      exact hs ⟨s, hsm, not_lt.mp hns⟩
    rcases h with h1 | h2 | h3
    · exact absurd h1 hs
    · obtain ⟨t, htm, ht0⟩ := h2
      obtain ⟨e, he⟩ := mapLog10_error durations t htm ht0
      exact ⟨e, by simp [fitLogLog, mapLog10_ok sizes hspos, he]⟩
    · have hlogeq : ∀ a ∈ sizes.map (Real.logb 10), ∀ b ∈ sizes.map (Real.logb 10),
          a = b := by
        intro a ha b hb
        obtain ⟨u, hu, rfl⟩ := List.mem_map.mp ha
        obtain ⟨w, hw, rfl⟩ := List.mem_map.mp hb
        rw [h3 u hu w hw]
      have hssm : ssm (sizes.map (Real.logb 10)) = 0 := ssm_eq_zero_of_const _ hlogeq
      by_cases hdp : ∀ t ∈ durations, 0 < t
      · refine ⟨.degenerate, ?_⟩
        simp [fitLogLog, mapLog10_ok sizes hspos, mapLog10_ok durations hdp,
          linregress, if_pos hssm]
      · push_neg at hdp
        obtain ⟨t, htm, ht0⟩ := hdp
        obtain ⟨e, he⟩ := mapLog10_error durations t htm ht0
        exact ⟨e, by simp [fitLogLog, mapLog10_ok sizes hspos, he]⟩

theorem fitter_domain_error_witness :
    ∃ e, fitLogLog [50, 150] [1, 0] = .error e :=
  fitter_domain_error [50, 150] [1, 0]
    (Or.inr (Or.inl ⟨0, by simp, le_refl 0⟩))

/-- C3: on parallel sequences of positive sizes and positive durations with
at least two distinct sizes, the fitter succeeds and the returned r_squared
lies in the interval [0, 1]. -/
theorem fitter_r_squared_in_unit_interval (sizes durations : List ℝ)
    (_hlen : sizes.length = durations.length)
    (hs : ∀ s ∈ sizes, 0 < s) (hd : ∀ t ∈ durations, 0 < t)
    (a b : ℝ) (ha : a ∈ sizes) (hb : b ∈ sizes) (hab : a ≠ b) :
    ∃ fr, fitLogLog sizes durations = .ok fr ∧
      0 ≤ fr.r_squared ∧ fr.r_squared ≤ 1 := by
  have hssm : ssm (sizes.map (Real.logb 10)) ≠ 0 :=
    ne_of_gt (ssm_log_pos sizes hs a b ha hb hab)
  have hlin := linregress_eq_of_ssm_ne (sizes.map (Real.logb 10))
    (durations.map (Real.logb 10)) hssm
  obtain ⟨hlo, hhi⟩ := linregress_rvalue_bounds _ _ _ hlin
  rw [fitLogLog_eq sizes durations hs hd, hlin]
  refine ⟨_, rfl, ?_, ?_⟩
  · exact sq_nonneg _
  · nlinarith

theorem fitter_r_squared_in_unit_interval_witness :
    ∃ fr, fitLogLog [10, 100] [1, 2] = .ok fr ∧
      0 ≤ fr.r_squared ∧ fr.r_squared ≤ 1 :=
  fitter_r_squared_in_unit_interval [10, 100] [1, 2] rfl (by norm_num) (by norm_num)
    10 100 (by simp) (by simp) (by norm_num)

/-- C4: multiplying every duration by a positive constant k shifts the
fitted intercept by exactly log10 k and leaves the slope and the r_squared
unchanged. -/
theorem fitter_scale_invariance (sizes durations : List ℝ) (k : ℝ)
    (hlen : sizes.length = durations.length)
    (hs : ∀ s ∈ sizes, 0 < s) (hd : ∀ t ∈ durations, 0 < t)
    (a b : ℝ) (ha : a ∈ sizes) (hb : b ∈ sizes) (hab : a ≠ b) (hk : 0 < k) :
    ∃ fr fr', fitLogLog sizes durations = .ok fr ∧
      fitLogLog sizes (durations.map (fun t => k * t)) = .ok fr' ∧
      fr'.slope = fr.slope ∧
      fr'.intercept = fr.intercept + Real.logb 10 k ∧
      fr'.r_squared = fr.r_squared := by
  have hssm : ssm (sizes.map (Real.logb 10)) ≠ 0 :=
    ne_of_gt (ssm_log_pos sizes hs a b ha hb hab)
  have hdne : durations ≠ [] := by
    have : 0 < durations.length := by
      rw [← hlen]
      exact List.length_pos.mpr (List.ne_nil_of_mem ha)
    exact List.length_pos.mp this
  have hlogy_ne : durations.map (Real.logb 10) ≠ [] := by
    simpa using hdne
  have hdk : ∀ t ∈ durations.map (fun t => k * t), 0 < t := by
    intro t ht
    obtain ⟨u, hu, rfl⟩ := List.mem_map.mp ht
    exact mul_pos hk (hd u hu)
  have hmaps : (durations.map (fun t => k * t)).map (Real.logb 10) =
      (durations.map (Real.logb 10)).map (fun v => Real.logb 10 k + v) := by
    rw [List.map_map, List.map_map]
    apply list_map_congr_mem
    intro t ht
    simp only [Function.comp_apply]
    rw [Real.logb_mul (ne_of_gt hk) (ne_of_gt (hd t ht))]
  have hlin := linregress_eq_of_ssm_ne (sizes.map (Real.logb 10))
    (durations.map (Real.logb 10)) hssm
  have hshift := linregress_shift (sizes.map (Real.logb 10))
    (durations.map (Real.logb 10)) (Real.logb 10 k) hssm hlogy_ne
  rw [fitLogLog_eq sizes durations hs hd, hlin]
  rw [fitLogLog_eq sizes (durations.map (fun t => k * t)) hs hdk, hmaps, hshift]
  exact ⟨_, _, rfl, rfl, rfl, rfl, rfl⟩

theorem fitter_scale_invariance_witness :
    ∃ fr fr', fitLogLog [10, 100] [1, 2] = .ok fr ∧
      fitLogLog [10, 100] (([1, 2] : List ℝ).map (fun t => 10 * t)) = .ok fr' ∧
      fr'.slope = fr.slope ∧
      fr'.intercept = fr.intercept + Real.logb 10 10 ∧
      fr'.r_squared = fr.r_squared :=
  fitter_scale_invariance [10, 100] [1, 2] 10 rfl (by norm_num) (by norm_num)
    10 100 (by simp) (by simp) (by norm_num) (by norm_num)

/-- C6: on the concrete sizes [50, 150, 450] with durations
[0.01, 0.03, 0.09] (an exact proportionality), the fitter returns slope
exactly 1 and r_squared exactly 1. -/
theorem fitter_exact_linear_scenario :
    ∃ fr, fitLogLog [50, 150, 450] [0.01, 0.03, 0.09] = .ok fr ∧
      fr.slope = 1 ∧ fr.r_squared = 1 := by
  have hs : ∀ s ∈ ([50, 150, 450] : List ℝ), 0 < s := by norm_num
  have hd : ∀ t ∈ ([0.01, 0.03, 0.09] : List ℝ), 0 < t := by norm_num
  have hssm : ssm (([50, 150, 450] : List ℝ).map (Real.logb 10)) ≠ 0 :=
    ne_of_gt (ssm_log_pos _ hs 50 150 (by simp) (by simp) (by norm_num))
  have h1 : Real.logb 10 (0.01 : ℝ) = Real.logb 10 (1/5000) + Real.logb 10 50 := by
    rw [← Real.logb_mul (by norm_num) (by norm_num)]
    norm_num
  have h2 : Real.logb 10 (0.03 : ℝ) = Real.logb 10 (1/5000) + Real.logb 10 150 := by
    rw [← Real.logb_mul (by norm_num) (by norm_num)]
    norm_num
  have h3 : Real.logb 10 (0.09 : ℝ) = Real.logb 10 (1/5000) + Real.logb 10 450 := by
    rw [← Real.logb_mul (by norm_num) (by norm_num)]
    norm_num
  have hc : ([0.01, 0.03, 0.09] : List ℝ).map (Real.logb 10) =
      (([50, 150, 450] : List ℝ).map (Real.logb 10)).map
        (fun v => Real.logb 10 (1/5000) + v) := by
    simp [h1, h2, h3]
  rw [fitLogLog_eq _ _ hs hd, hc, linregress_self_shift _ _ hssm (by simp)]
  exact ⟨_, rfl, rfl, by norm_num⟩

/-- C5: for every slope m, intercept b and positive size x, the
extrapolation function returns exactly the power-law value 10^b * x^m. -/
theorem extrapolation_power_law (m b x : ℝ) (hx : 0 < x) :
    reg m b x = .ok ((10 : ℝ) ^ b * x ^ m) := by
  have hlog : log10 x = .ok (Real.logb 10 x) := by simp [log10, if_pos hx]
  have hpow : (10 : ℝ) ^ (m * Real.logb 10 x) = x ^ m := by
    rw [mul_comm, Real.rpow_mul (by norm_num : (0:ℝ) ≤ 10),
      Real.rpow_logb (by norm_num) (by norm_num) hx]
  simp only [reg, hlog, hpow]

theorem extrapolation_power_law_witness :
    0 < (100 : ℝ) ∧ reg 1 0 100 = .ok ((10 : ℝ) ^ (0 : ℝ) * (100 : ℝ) ^ (1 : ℝ)) :=
  ⟨by norm_num, extrapolation_power_law 1 0 100 (by norm_num)⟩

/-- C10: evaluating the extrapolation function fails (the unguarded log10 of
the size raises a domain error) precisely on non-positive sizes; over a list
of sizes the error branch is unreachable exactly when every size is
positive. -/
theorem extrapolation_defined_iff_positive (m b : ℝ) :
    (∀ x : ℝ, (∃ e, reg m b x = .error e) ↔ x ≤ 0) ∧
    (∀ xs : List ℝ, (∀ x ∈ xs, ∃ v, reg m b x = .ok v) ↔ ∀ x ∈ xs, 0 < x) := by
  have hkey : ∀ x : ℝ, (∃ e, reg m b x = .error e) ↔ x ≤ 0 := by
    intro x
    constructor
    · rintro ⟨e, he⟩
      by_contra hpos
      push_neg at hpos
      simp [reg, log10, if_pos hpos] at he
    · intro hx
      refine ⟨.nonPositive, ?_⟩
      simp [reg, log10, if_neg (not_lt.mpr hx)]
  refine ⟨hkey, ?_⟩
  intro xs
  constructor
  · intro h x hx
    by_contra hx0
    push_neg at hx0
    obtain ⟨v, hv⟩ := h x hx
    obtain ⟨e, he⟩ := (hkey x).mpr hx0
    rw [hv] at he
    exact Except.noConfusion he
  · intro h x hx
    refine ⟨(10 : ℝ) ^ b * (10 : ℝ) ^ (m * Real.logb 10 x), ?_⟩
    simp [reg, log10, if_pos (h x hx)]

theorem extrapolation_defined_iff_positive_witness :
    ∃ e, reg 1 0 (-1) = .error e :=
  ((extrapolation_defined_iff_positive 1 0).1 (-1)).mpr (by norm_num)

end TextBench
